import Mathlib

/-!
Verification development for the deno-jieba wrapper (src/mod.ts).

The repository consists of a thin TypeScript wrapper (src/mod.ts) around a
compiled segmentation engine (lib/deno_jieba.generated.js, not part of the
sources).  The wrapper communicates with the engine through flat strings:
the engine joins result rows with a row separator, and fields inside a row
with a column separator; the wrapper splits them back (Split.Row / Split.Col
in mod.ts) and, for tokenize, converts the offset fields with Number().

Everything under the `Wrapper` part below is translated from src/mod.ts.
The engine itself is absent from the sources, so it is modelled from the
spec (sections 3, 4.1-4.5, 4.7 of spec.md): a lexicon-driven DAG over the
input characters, a backward maximum-probability dynamic program with exact
integer scoring, the all-substrings mode, the search n-gram expansion, the
suggestFreq simulation and the keyword extractors.  Texts are represented
as lists of characters (the spec fixes code-point units for offsets).
-/

namespace DenoJieba

/-- Words and texts are lists of characters (code points). -/
abbrev Word := List Char

/-- Modelled from the spec: the lexicon maps a word to its frequency
(section 3, LexicalEntry / Lexicon).  Tags play no role in any claim and
are not modelled. -/
abbrev Lexicon := List (Word × Nat)

/-- Modelled from the spec: the row separator returned by the engine's
get_row_separator (the generated engine glue is not in the sources); an
out-of-band control character standing for the engine's sentinel. -/
def rowSepC : Char := Char.ofNat 30

/-- Modelled from the spec: the column separator returned by the engine's
get_col_separator; a second out-of-band control character. -/
def colSepC : Char := Char.ofNat 31

/-- JavaScript String.prototype.split on a single-character separator, as
used by Split.Row and Split.Col in src/mod.ts.  On the empty string it
returns the one-element list containing the empty string. -/
def splitSep (sep : Char) : List Char → List (List Char)
  | [] => [[]]
  | c :: cs =>
      let r := splitSep sep cs
      if c = sep then [] :: r
      else (c :: r.headI) :: r.tail

/-- Joining rows with a separator, as the engine glue does before handing
a result string to the wrapper. -/
def joinSep (sep : Char) : List (List Char) → List Char
  | [] => []
  | [r] => r
  | r :: rs => r ++ sep :: joinSep sep rs

/-- Decimal digit character for a digit value, code point 48 upward. -/
def digitChar (d : Nat) : Char := Char.ofNat (48 + d % 10)

/-- Reading back a decimal digit character; anything outside the ten digit
code points gives nothing. -/
def charDigit? (c : Char) : Option Nat :=
  if 48 ≤ c.toNat && c.toNat ≤ 57 then some (c.toNat - 48) else none

/-- Decimal rendering with a structural fuel bound on the number of
digits; every use supplies enough fuel. -/
def natCharsF (fuel : Nat) (n : Nat) : List Char :=
  match fuel with
  | 0 => [digitChar (n % 10)]
  | fuel + 1 =>
      if n < 10 then [digitChar n]
      else natCharsF fuel (n / 10) ++ [digitChar (n % 10)]

/-- Decimal rendering of a natural number, as the engine glue prints token
offsets into the transport string. -/
def natChars (n : Nat) : List Char := natCharsF n n

/-- Accumulating decimal parse; `none` models the JavaScript NaN result of
Number() on a string with a non-digit character. -/
def parseDigitsAux (acc : Nat) : List Char → Option Nat
  | [] => some acc
  | c :: cs =>
      match charDigit? c with
      | some d => parseDigitsAux (acc * 10 + d) cs
      | none => none

/-- Model of the JavaScript Number() conversion applied by the Token
constructor in src/mod.ts to the start and end fields.  Number of the empty
string is 0; a non-numeric string gives NaN, modelled as `none`. -/
def jsNumber? (s : List Char) : Option Nat := parseDigitsAux 0 s

/-- Frequency of a word recorded in the lexicon. -/
def lookupFreq (lex : Lexicon) (w : Word) : Option Nat := lex.lookup w

/-- Dictionary membership. -/
def isEntry (lex : Lexicon) (w : Word) : Bool := (lookupFreq lex w).isSome

/-- Modelled from the spec: the derived total-frequency sum of the lexicon
(section 3, Lexicon invariant). -/
def totalFreq (lex : Lexicon) : Nat := (lex.map (fun e => e.2)).sum

/-- Modelled from the spec: the scoring floor for spans absent from the
lexicon is derived from the least-frequent dictionary entry (section 4.3). -/
def floorFreq (lex : Lexicon) : Nat :=
  match lex.map (fun e => e.2) with
  | [] => 1
  | f :: fs => fs.foldl Nat.min f

/-- Frequency used to score a DAG edge: the recorded frequency for entries,
the floor for the forced single-character fallback edges. -/
def edgeFreq (lex : Lexicon) (w : Word) : Nat :=
  (lookupFreq lex w).getD (floorFreq lex)

/-- Modelled from the spec: the DAG edges leaving the start of the suffix
`s`, given as span lengths (section 4.2).  The single-character edge is
always present; longer edges are exactly the dictionary-recognized
prefixes of `s`. -/
def dagLens (lex : Lexicon) (s : List Char) : List Nat :=
  1 :: (List.range' 2 (s.length - 1)).filter (fun l => isEntry lex (s.take l))

/-- Route record of the backward dynamic program (section 3, Route): the
product of edge frequencies along the best path for a suffix, the number
of segments, and the length of the first segment (0 at the end of text). -/
structure Route where
  p : Nat
  c : Nat
  len : Nat
deriving DecidableEq, Repr

/-- Exact comparison of two (product, segment count) scores: with total
frequency sum `T`, path A is strictly better than path B iff
prod A / T ^ count A > prod B / T ^ count B as rationals, i.e. iff
prod A * T ^ count B > prod B * T ^ count A over the integers.  This is the
maximum-total-log-frequency criterion of section 4.3, made exact. -/
def betterScore (T : Nat) (a b : Route) : Bool :=
  b.p * T ^ a.c < a.p * T ^ b.c

/-- Fold selecting the best route; a later candidate replaces the current
best only when strictly better, so among ties the earliest candidate wins
(the smallest-end tie-break of section 4.3, edges being listed by
increasing length). -/
def pickBest (T : Nat) (r : Route) (rs : List Route) : Route :=
  rs.foldl (fun best cand => if betterScore T cand best then cand else best) r

/-- Modelled from the spec: the backward maximum-probability dynamic
program of section 4.3, phrased on suffixes of the input.  The fuel
argument (first) bounds the recursion depth; every use instantiates it
with the suffix length.  At the end of the text the route is the empty
path; otherwise every DAG edge is scored by the frequency of its span
times the best route of the remaining suffix. -/
def bestRouteF (lex : Lexicon) (T : Nat) : Nat → List Char → Route
  | _, [] => ⟨1, 0, 0⟩
  | 0, _ :: _ => ⟨1, 0, 0⟩
  | fuel + 1, c :: cs =>
      let s := c :: cs
      let mk := fun l =>
        let r := bestRouteF lex T fuel (s.drop l)
        (⟨edgeFreq lex (s.take l) * r.p, r.c + 1, l⟩ : Route)
      match (dagLens lex s).map mk with
      | [] => ⟨1, 0, 0⟩
      | r :: rs => pickBest T r rs

/-- Best route for a suffix. -/
def bestRoute (lex : Lexicon) (T : Nat) (s : List Char) : Route :=
  bestRouteF lex T s.length s

/-- Modelled from the spec: forward reconstruction of the best path
(section 4.3), emitting `(word, start, end)` records with code-point
offsets; `pos` is the offset of the suffix `s` in the original text. -/
def engineToksF (lex : Lexicon) (T : Nat) : Nat → Nat → List Char → List (Word × Nat × Nat)
  | _, _, [] => []
  | 0, _, _ :: _ => []
  | fuel + 1, pos, c :: cs =>
      let s := c :: cs
      let l := (bestRoute lex T s).len
      (s.take l, pos, pos + l) :: engineToksF lex T fuel (pos + l) (s.drop l)

/-- Default-mode engine tokenization with offsets. -/
def engineToks (lex : Lexicon) (T : Nat) (t : List Char) : List (Word × Nat × Nat) :=
  engineToksF lex T t.length 0 t

/-- Modelled from the spec: the default dictionary cut (section 4.5).  The
HMM unknown-word pass is not modelled: every claim exercises spans that
the dictionary explains, where section 4.4 says the HMM is not invoked. -/
def engineCut (lex : Lexicon) (T : Nat) (t : List Char) : List Word :=
  (engineToks lex T t).map (fun x => x.1)

/-- Modelled from the spec: all mode emits, at every start position, every
DAG edge span (section 4.5, All mode), in position order and by increasing
length at a fixed position. -/
def engineCutAll (lex : Lexicon) (t : List Char) : List Word :=
  (List.range t.length).flatMap (fun i =>
    (dagLens lex (t.drop i)).map (fun l => (t.drop i).take l))

/-- Modelled from the spec: the search-mode expansion of one default-mode
token (section 4.5, Search mode, tokenize variant): for a token of length
at least 2, every contiguous n-gram of length between 2 and length - 1
that is itself a dictionary entry is emitted with its offsets, grams of a
given size in position order and sizes in increasing order, and the full
token is restated as the last record of its group. -/
def searchExpand (lex : Lexicon) (tok : Word × Nat × Nat) : List (Word × Nat × Nat) :=
  let w := tok.1
  let st := tok.2.1
  let n := w.length
  ((List.range' 2 (n - 2)).flatMap (fun sz =>
    (List.range (n - sz + 1)).filterMap (fun i =>
      if isEntry lex ((w.drop i).take sz) then some ((w.drop i).take sz, st + i, st + i + sz)
      else none)))
  ++ [tok]

/-- Tokenize mode of src/mod.ts (enum TokenizeMode). -/
inductive TokenizeMode
  | Default
  | Search
deriving DecidableEq, Repr

/-- Cut mode of src/mod.ts (enum CutMode). -/
inductive CutMode
  | Default
  | HMM
  | All
deriving DecidableEq, Repr

/-- Modelled from the spec: engine tokenization for both tokenize modes
(section 4.5); search mode expands every default token. -/
def engineTokenize (lex : Lexicon) (T : Nat) (tm : TokenizeMode) (t : List Char) :
    List (Word × Nat × Nat) :=
  match tm with
  | TokenizeMode.Default => engineToks lex T t
  | TokenizeMode.Search => (engineToks lex T t).flatMap (searchExpand lex)

/-- Modelled from the spec: the suggestFreq simulation (section 4.1): cut
the word's characters with the current lexicon in dictionary-only mode,
score the resulting alternative segmentation with the exact section 4.3
scoring, and return the least frequency making the single-word reading at
least as good, floored at one more than the alternative's score and never
below the currently recorded frequency.  In exact arithmetic the score of
a segmentation with segment frequencies f1..fk is
T * (f1 / T) * ... * (fk / T), whose floor is (f1 * ... * fk) * T / T ^ k. -/
def engineSuggestFreq (lex : Lexicon) (w : Word) : Nat :=
  let T := totalFreq lex
  let segs := engineCut lex T w
  let p := (segs.map (edgeFreq lex)).prod
  max (p * T / T ^ segs.length + 1) ((lookupFreq lex w).getD 1)

/-- Insert-or-overwrite of a lexicon entry (section 4.1, addWord). -/
def upsert (lex : Lexicon) (w : Word) (f : Nat) : Lexicon :=
  if lex.any (fun e => e.1 == w) then
    lex.map (fun e => if e.1 == w then (w, f) else e)
  else lex ++ [(w, f)]

/-- Modelled from the spec: the engine's add_word (section 4.1): a negative
frequency asks for the derived default computed by the suggestFreq logic.
The tag argument is accepted and ignored: tags play no role in any claim. -/
def lib_add_word (lex : Lexicon) (w : Word) (freq : Int) (_tag : Word) : Lexicon :=
  upsert lex w (if freq < 0 then engineSuggestFreq lex w else freq.toNat)

/-- Modelled from the spec: the engine's load_dict merge (section 4.1,
merge): parsed entries are applied on top of the current state. -/
def lib_load_dict (lex : Lexicon) (entries : List (Word × Nat)) : Lexicon :=
  entries.foldl (fun acc e => upsert acc e.1 e.2) lex

/-- Characters of a string literal. -/
def wd (s : String) : Word := s.toList

/-- Modelled from the spec: a fragment of the shipped base dictionary (the
dictionary resource is a static asset of the engine, not in the sources;
section 8 pins only the behaviors it must induce).  The entries cover every
word the pinned scenarios exercise; the frequencies are chosen so that the
exact section 4.3 scoring reproduces all the snapshot behaviors of
section 8, and the closing entry stands for the remaining mass of the
resource so that the total-frequency sum is 60000000. -/
def baseLex : Lexicon := [
  (wd "我", 328000), (wd "们", 3000), (wd "来", 40000), (wd "到", 34000),
  (wd "北", 17000), (wd "京", 6600), (wd "清", 2800), (wd "华", 8600),
  (wd "大", 144000), (wd "学", 17400), (wd "中", 144300), (wd "出", 144400),
  (wd "了", 876000), (wd "一", 217000), (wd "个", 157000), (wd "叛", 220),
  (wd "徒", 320), (wd "南", 2300), (wd "市", 5100), (wd "长", 28000),
  (wd "江", 4800), (wd "桥", 1200),
  (wd "我们", 161000), (wd "来到", 4700), (wd "北京", 34000), (wd "清华", 2600),
  (wd "清华大学", 2000), (wd "华大", 75), (wd "大学", 20000), (wd "一个", 76000),
  (wd "叛徒", 278), (wd "南京", 6800), (wd "京市", 90), (wd "南京市", 1700),
  (wd "长江", 7600), (wd "大桥", 1100), (wd "长江大桥", 500),
  (wd "的", 57499517)]

/-- Modelled from the spec: the extraction stopword set (section 4.7); the
shipped set is an engine asset, a few representative function words stand
for it.  Single-character tokens are excluded separately. -/
def stopWords : List Word := [wd "the", wd "of", wd "and", wd "is", wd "to"]

/-- Modelled from the spec: the candidate terms of both keyword extractors
(section 4.7): the default segmentation with single-character tokens and
stopwords filtered out. -/
def rankTokens (lex : Lexicon) (T : Nat) (t : List Char) : List Word :=
  (engineCut lex T t).filter (fun w => decide (2 ≤ w.length) && !(stopWords.contains w))

/-- First-occurrence deduplication, keeping the order of first appearance. -/
def firstDedup : List Word → List Word
  | [] => []
  | w :: ws => w :: (firstDedup ws).filter (fun x => !(x == w))

/-- Distinct candidate terms in first-occurrence order. -/
def candidatesOf (lex : Lexicon) (T : Nat) (t : List Char) : List Word :=
  firstDedup (rankTokens lex T t)

/-- Modelled from the spec: a fragment of the shipped IDF table (section 3,
IDFTable; a static engine asset absent from the sources), with weights kept
as scaled integers; no claim pins an extraction weight. -/
def idfTable : List (Word × Nat) := [
  (wd "我们", 5000), (wd "一个", 4000), (wd "叛徒", 11000),
  (wd "清华大学", 12000), (wd "北京", 6000)]

/-- Default IDF weight for terms absent from the table (section 4.7: a
fixed default weight, not exclusion). -/
def idfDefault : Nat := 7000

/-- IDF lookup with default. -/
def idfOf (w : Word) : Nat := (idfTable.lookup w).getD idfDefault

/-- Stable descending insertion by score: an element moves before an
earlier one only when strictly greater, so ties keep first-occurrence
order (the tie-break of section 4.7). -/
def insertDesc {β : Type} [LinearOrder β] (x : Word × β) :
    List (Word × β) → List (Word × β)
  | [] => [x]
  | y :: ys => if y.2 < x.2 then x :: y :: ys else y :: insertDesc x ys

/-- Stable descending sort by score. -/
def sortDesc {β : Type} [LinearOrder β] : List (Word × β) → List (Word × β)
  | [] => []
  | x :: xs => insertDesc x (sortDesc xs)

/-- Modelled from the spec: top-K truncation (section 4.7): a positive K
takes the first K ranked candidates, any other K returns all of them. -/
def truncTopK {β : Type} (k : Int) (xs : List (Word × β)) : List (Word × β) :=
  if 0 < k then xs.take k.toNat else xs

/-- TF-IDF score of one candidate term: its term frequency over the
filtered token multiset times its IDF weight (section 4.7). -/
def tfidfScore (lex : Lexicon) (T : Nat) (t : List Char) (w : Word) : Nat :=
  (rankTokens lex T t).count w * idfOf w

/-- Modelled from the spec: the TF-IDF ranking (section 4.7): scored
candidates sorted descending and truncated to K. -/
def tfidfPairs (lex : Lexicon) (t : List Char) (k : Int) : List (Word × Nat) :=
  truncTopK k (sortDesc ((candidatesOf lex (totalFreq lex) t).map
    (fun w => (w, tfidfScore lex (totalFreq lex) t w))))

/-- Co-occurrence pairs within the fixed sliding window of size 5
(section 4.7, TextRank). -/
def windowPairs : List Word → List (Word × Word)
  | [] => []
  | w :: ws => ((ws.take 4).map (fun v => (w, v))) ++ windowPairs ws

/-- Undirected co-occurrence weight of two terms over the window pairs of
the filtered token sequence (section 4.7, TextRank edges). -/
def coW (toks : List Word) (a b : Word) : Nat :=
  (windowPairs toks).count (a, b) + (windowPairs toks).count (b, a)

/-- Total outgoing edge weight of a node. -/
def outW (toks nodes : List Word) (b : Word) : Nat :=
  (nodes.map (fun x => coW toks b x)).sum

/-- One node's updated PageRank-style score: base mass 1 - d plus damping
d = 17/20 times the edge-weight-proportional transfer from every node, in
exact rational arithmetic (a zero out-weight contributes zero, rational
division by zero being zero). -/
def trContrib (toks nodes : List Word) (a : Word) (sc : List (Word × ℚ)) : ℚ :=
  (3 : ℚ) / 20 + (17 : ℚ) / 20 *
    (sc.foldr (fun bx acc =>
      acc + ((coW toks bx.1 a : ℚ) / (outW toks nodes bx.1 : ℚ)) * bx.2) 0)

/-- One iteration of the ranking: every node is rescored. -/
def prStep (nodes : List Word) (contrib : Word → List (Word × ℚ) → ℚ)
    (sc : List (Word × ℚ)) : List (Word × ℚ) :=
  nodes.map (fun a => (a, contrib a sc))

/-- Modelled from the spec: the TextRank scores (section 4.7): a
co-occurrence graph over the filtered token sequence with window 5 and
undirected counted edges, ranked by 10 rounds of weighted PageRank-style
iteration with damping factor 17/20 from uniform initial scores. -/
def textrankScores (toks : List Word) (nodes : List Word) : List (Word × ℚ) :=
  Nat.iterate (prStep nodes (trContrib toks nodes)) 10 (nodes.map (fun a => (a, (1 : ℚ))))

/-- Modelled from the spec: the TextRank ranking (section 4.7), sorted
descending with the same tie-break and truncation as TF-IDF. -/
def textrankPairs (lex : Lexicon) (t : List Char) (k : Int) : List (Word × ℚ) :=
  truncTopK k (sortDesc (textrankScores (rankTokens lex (totalFreq lex) t)
    (candidatesOf lex (totalFreq lex) t)))

/-- Decimal rendering of an integer. -/
def intChars (i : Int) : List Char :=
  (if i < 0 then ['-'] else []) ++ natChars i.natAbs

/-- Rendering of a rational weight into the transport string (the engine
glue prints extraction weights; no claim pins the printed form). -/
def ratChars (q : ℚ) : List Char := intChars q.num ++ '/' :: natChars q.den

/-- Modelled from the spec: the engine's cut entry point as seen by the
wrapper: the token rows joined with the row separator.  The Default and
HMM cut modes coincide in this model (the HMM pass is only invoked on
spans the dictionary cannot explain, section 4.4, and no claim exercises
such spans). -/
def lib_cut (lex : Lexicon) (t : List Char) (_mode : CutMode) : List Char :=
  joinSep rowSepC (engineCut lex (totalFreq lex) t)

/-- Modelled from the spec: the engine's cut_all entry point. -/
def lib_cut_all (lex : Lexicon) (t : List Char) : List Char :=
  joinSep rowSepC (engineCutAll lex t)

/-- Transport encoding of one token row: word, start and end separated by
the column separator. -/
def encodeTok (x : Word × Nat × Nat) : List Char :=
  x.1 ++ colSepC :: (natChars x.2.1 ++ colSepC :: natChars x.2.2)

/-- Modelled from the spec: the engine's tokenize entry point: encoded
token rows joined with the row separator.  The cut-mode argument is
accepted and ignored for the same reason as in lib_cut. -/
def lib_tokenize (lex : Lexicon) (t : List Char) (tm : TokenizeMode) (_cm : CutMode) : List Char :=
  joinSep rowSepC ((engineTokenize lex (totalFreq lex) tm t).map encodeTok)

/-- Modelled from the spec: the engine's extract_tags_by_tfidf entry point:
word and printed weight separated by the column separator, rows joined with
the row separator.  The allowed-POS argument is accepted and ignored:
every claim passes the wrapper default, the empty allow-list, which
section 4.7 says applies no restriction. -/
def lib_extract_tags_by_tfidf (lex : Lexicon) (t : List Char) (k : Int) (_allowed : List Char) :
    List Char :=
  joinSep rowSepC ((tfidfPairs lex t k).map (fun p => p.1 ++ colSepC :: natChars p.2))

/-- Modelled from the spec: the engine's extract_tags_by_textrank entry
point, same transport shape as TF-IDF. -/
def lib_extract_tags_by_textrank (lex : Lexicon) (t : List Char) (k : Int) (_allowed : List Char) :
    List Char :=
  joinSep rowSepC ((textrankPairs lex t k).map (fun p => p.1 ++ colSepC :: ratChars p.2))

/-- Modelled from the spec: the engine's reset discards all session
mutations and restores the originally loaded base state (section 4.1). -/
def lib_reset (_lex : Lexicon) : Lexicon := baseLex

/-- Token record of src/mod.ts (interface Token): the word together with
the start and end offsets produced by Number(); `none` stands for the
JavaScript NaN, which arises when a field is missing or non-numeric.  The
source calls the third field `end`, a reserved word here. -/
structure Token where
  word : Word
  start : Option Nat
  endPos : Option Nat
deriving DecidableEq, Repr

/-- Token constructor of src/mod.ts: destructures a split row into word,
start and end, converting the offsets with Number(); a missing field is
undefined, and Number(undefined) is NaN. -/
def mkToken (fields : List Word) : Token :=
  { word := fields.getD 0 []
  , start := (fields.get? 1).bind jsNumber?
  , endPos := (fields.get? 2).bind jsNumber? }

/-- Row split of src/mod.ts (Split.Row). -/
def splitRow (s : List Char) : List (List Char) := splitSep rowSepC s

/-- Column split of src/mod.ts (Split.Col). -/
def splitCol (s : List Char) : List (List Char) := splitSep colSepC s

/-- The cut wrapper of src/mod.ts: all mode goes through cut_all, any
other mode through cut, and the engine's row string is split on the row
separator.  The lexicon stands for the engine's process-wide dictionary
state. -/
def cut (lex : Lexicon) (sentence : List Char) (mode : CutMode) : List Word :=
  if mode = CutMode.All then splitRow (lib_cut_all lex sentence)
  else splitRow (lib_cut lex sentence mode)

/-- The tokenize wrapper of src/mod.ts: row split, column split of every
row, and the Token constructor on every field list. -/
def tokenize (lex : Lexicon) (sentence : List Char) (tm : TokenizeMode) (cm : CutMode) :
    List Token :=
  ((splitRow (lib_tokenize lex sentence tm cm)).map splitCol).map mkToken

/-- The extractTags combinator of src/mod.ts: the engine row string is
split on the row separator and every row on the column separator; the
allowed-POS list is joined with the column separator before the call.
Nothing is ever converted to a number. -/
def extractTags (fn : List Char → Int → List Char → List Char)
    (sentence : List Char) (top_k : Int) (allowed_pos : List Word) : List (List Word) :=
  (splitRow (fn sentence top_k (joinSep colSepC allowed_pos))).map splitCol

/-- TFIDF.extractTags of src/mod.ts. -/
def TFIDF_extractTags (lex : Lexicon) (sentence : List Char) (top_k : Int)
    (allowed_pos : List Word) : List (List Word) :=
  extractTags (lib_extract_tags_by_tfidf lex) sentence top_k allowed_pos

/-- TextRank.extractTags of src/mod.ts. -/
def TextRank_extractTags (lex : Lexicon) (sentence : List Char) (top_k : Int)
    (allowed_pos : List Word) : List (List Word) :=
  extractTags (lib_extract_tags_by_textrank lex) sentence top_k allowed_pos

/-- The default top_k of the extractTags wrapper in src/mod.ts. -/
def defaultTopK : Int := 20

/-- The addWord wrapper of src/mod.ts, with its default frequency -1. -/
def addWord (lex : Lexicon) (w : Word) (freq : Int) (tag : Word) : Lexicon :=
  lib_add_word lex w freq tag

/-- The suggestFreq wrapper of src/mod.ts (a direct re-export). -/
def suggestFreq (lex : Lexicon) (w : Word) : Nat := engineSuggestFreq lex w

/-- The reset wrapper of src/mod.ts (a direct re-export). -/
def reset (lex : Lexicon) : Lexicon := lib_reset lex

/-- The loadDict wrapper of src/mod.ts, on an already-parsed resource. -/
def loadDict (lex : Lexicon) (entries : List (Word × Nat)) : Lexicon :=
  lib_load_dict lex entries

/-- A session mutation, for the reset round-trip property: an addWord call
or a dictionary merge. -/
inductive DictOp
  | add (w : Word) (freq : Int) (tag : Word)
  | merge (entries : List (Word × Nat))

/-- Applying one mutation to the engine state. -/
def applyOp (lex : Lexicon) : DictOp → Lexicon
  | DictOp.add w f tg => addWord lex w f tg
  | DictOp.merge es => loadDict lex es

/-- Applying a sequence of mutations. -/
def applyOps (lex : Lexicon) (ops : List DictOp) : Lexicon := ops.foldl applyOp lex

/-- Conversion of an engine token triple into the wrapper's Token record
with successfully parsed offsets. -/
def toTok (x : Word × Nat × Nat) : Token := ⟨x.1, some x.2.1, some x.2.2⟩

/-- Contiguous-coverage check: the tokens' spans chain from `a` to `b`,
each token starting where the previous one ended, with a nonempty span
and parsed offsets. -/
def spanChain (a b : Nat) : List Token → Bool
  | [] => a == b
  | tok :: toks =>
      match tok.start, tok.endPos with
      | some st, some en => st == a && decide (a < en) && spanChain en b toks
      | _, _ => false

/-- A text avoiding the two transport sentinels, so that the engine's row
strings decode unambiguously. -/
def sepFree (t : List Char) : Bool :=
  t.all (fun c => !(c == rowSepC) && !(c == colSepC))

/-! ### Transport lemmas: split and join -/

theorem splitSep_ne_nil (sep : Char) (l : List Char) : splitSep sep l ≠ [] := by
  induction l with
  | nil => simp [splitSep]
  | cons c cs ih =>
      simp only [splitSep]
      split <;> simp

theorem splitSep_append (sep : Char) (a b : List Char) :
    splitSep sep (a ++ sep :: b) = splitSep sep a ++ splitSep sep b := by
  induction a with
  | nil => simp [splitSep]
  | cons c cs ih =>
      by_cases hc : c = sep
      · subst hc
        simp [splitSep, ih]
      · rcases hsa : splitSep sep cs with _ | ⟨h0, t0⟩
        · exact absurd hsa (splitSep_ne_nil sep cs)
        · have hmid : splitSep sep (cs ++ sep :: b) = h0 :: (t0 ++ splitSep sep b) := by
            rw [ih, hsa]; rfl
          simp only [List.cons_append, splitSep, if_neg hc, List.append_eq, hmid, hsa]
          rfl

theorem splitSep_not_mem (sep : Char) (l : List Char) (h : sep ∉ l) :
    splitSep sep l = [l] := by
  induction l with
  | nil => rfl
  | cons c cs ih =>
      simp only [List.mem_cons, not_or] at h
      have hc : ¬(c = sep) := fun he => h.1 he.symm
      simp [splitSep, hc, ih h.2]

theorem splitSep_joinSep_flat (sep : Char) (rows : List (List Char)) (h : rows ≠ []) :
    splitSep sep (joinSep sep rows) = rows.flatMap (splitSep sep) := by
  induction rows with
  | nil => exact absurd rfl h
  | cons r rs ih =>
      cases rs with
      | nil => simp [joinSep]
      | cons r2 rs2 =>
          rw [show joinSep sep (r :: r2 :: rs2) = r ++ sep :: joinSep sep (r2 :: rs2) from rfl]
          rw [splitSep_append, ih (by simp)]
          simp

theorem splitSep_joinSep_id (sep : Char) (rows : List (List Char)) (h : rows ≠ [])
    (hf : ∀ r ∈ rows, sep ∉ r) : splitSep sep (joinSep sep rows) = rows := by
  rw [splitSep_joinSep_flat sep rows h]
  clear h
  induction rows with
  | nil => rfl
  | cons r rs ih =>
      simp only [List.flatMap_cons]
      rw [splitSep_not_mem sep r (hf r (by simp)), ih (fun x hx => hf x (by simp [hx]))]
      rfl

/-! ### Decimal rendering and Number() parsing round trip -/

theorem charDigit?_digitChar (d : Nat) (h : d < 10) : charDigit? (digitChar d) = some d := by
  interval_cases d <;> rfl

theorem parseDigitsAux_append (s : List Char) : ∀ (acc v : Nat), parseDigitsAux acc s = some v →
    ∀ t, parseDigitsAux acc (s ++ t) = parseDigitsAux v t := by
  induction s with
  | nil =>
      intro acc v h t
      simp only [parseDigitsAux] at h
      cases h
      rfl
  | cons c cs ih =>
      intro acc v h t
      simp only [parseDigitsAux, List.cons_append] at h ⊢
      cases hc : charDigit? c with
      | none =>
          rw [hc] at h
          exact Option.noConfusion h
      | some d =>
          rw [hc] at h
          exact ih _ _ h t

theorem natCharsF_parse : ∀ fuel n : Nat, n < 10 ^ (fuel + 1) → ∀ acc : Nat,
    parseDigitsAux acc (natCharsF fuel n) =
      some (acc * 10 ^ (natCharsF fuel n).length + n) := by
  intro fuel
  induction fuel with
  | zero =>
      intro n hn acc
      have hlt : n < 10 := by simpa using hn
      have hm : n % 10 = n := Nat.mod_eq_of_lt hlt
      have he : natCharsF 0 n = [digitChar n] := by simp [natCharsF, hm]
      rw [he]
      simp [parseDigitsAux, charDigit?_digitChar n hlt]
  | succ fuel ih =>
      intro n hn acc
      by_cases h : n < 10
      · have he : natCharsF (fuel + 1) n = [digitChar n] := by simp [natCharsF, h]
        rw [he]
        simp [parseDigitsAux, charDigit?_digitChar n h]
      · have he : natCharsF (fuel + 1) n = natCharsF fuel (n / 10) ++ [digitChar (n % 10)] := by
          simp [natCharsF, h]
        rw [he]
        have hdiv : n / 10 < 10 ^ (fuel + 1) := by
          rw [Nat.div_lt_iff_lt_mul (by omega : 0 < 10)]
          have hp : (10 : Nat) ^ (fuel + 1) * 10 = 10 ^ (fuel + 1 + 1) := (pow_succ 10 (fuel + 1)).symm
          rw [hp]
          exact hn
        have hmod : n % 10 < 10 := Nat.mod_lt _ (by omega)
        have e1 := parseDigitsAux_append _ _ _ (ih (n / 10) hdiv acc) [digitChar (n % 10)]
        rw [e1]
        simp only [parseDigitsAux, charDigit?_digitChar _ hmod, List.length_append,
          List.length_singleton]
        congr 1
        have hdm : 10 * (n / 10) + n % 10 = n := Nat.div_add_mod n 10
        have harr : (acc * 10 ^ (natCharsF fuel (n / 10)).length + n / 10) * 10 + n % 10 =
            acc * (10 ^ (natCharsF fuel (n / 10)).length * 10) + (10 * (n / 10) + n % 10) := by
          ring
        rw [harr, hdm, pow_succ]

theorem natChars_parse (n : Nat) : ∀ acc : Nat,
    parseDigitsAux acc (natChars n) = some (acc * 10 ^ (natChars n).length + n) := by
  intro acc
  have hn : n < 10 ^ (n + 1) := by
    calc n < 10 ^ n := Nat.lt_pow_self (by omega) n
    _ ≤ 10 ^ (n + 1) := Nat.pow_le_pow_right (by omega) (by omega)
  exact natCharsF_parse n n hn acc

theorem jsNumber_natChars (n : Nat) : jsNumber? (natChars n) = some n := by
  have := natChars_parse n 0
  simpa [jsNumber?] using this

theorem natCharsF_isDigit : ∀ fuel n : Nat, ∀ c ∈ natCharsF fuel n,
    (charDigit? c).isSome = true := by
  intro fuel
  induction fuel with
  | zero =>
      intro n c hc
      simp only [natCharsF, List.mem_singleton] at hc
      subst hc
      rw [charDigit?_digitChar _ (Nat.mod_lt _ (by omega))]
      rfl
  | succ fuel ih =>
      intro n c hc
      by_cases h : n < 10
      · simp only [natCharsF, if_pos h, List.mem_singleton] at hc
        subst hc
        rw [charDigit?_digitChar n h]
        rfl
      · simp only [natCharsF, if_neg h] at hc
        rcases List.mem_append.mp hc with h1 | h2
        · exact ih (n / 10) c h1
        · simp only [List.mem_singleton] at h2
          subst h2
          rw [charDigit?_digitChar _ (Nat.mod_lt _ (by omega))]
          rfl

theorem natChars_isDigit (n : Nat) : ∀ c ∈ natChars n, (charDigit? c).isSome = true :=
  natCharsF_isDigit n n

theorem rowSep_not_digit : charDigit? rowSepC = none := by decide

theorem colSep_not_digit : charDigit? colSepC = none := by decide

theorem natChars_ne_sep (n : Nat) (c : Char) (hc : c ∈ natChars n) :
    c ≠ rowSepC ∧ c ≠ colSepC := by
  have h := natChars_isDigit n c hc
  constructor <;> intro he <;> subst he
  · rw [rowSep_not_digit] at h; simp at h
  · rw [colSep_not_digit] at h; simp at h

/-! ### Structure of the DAG and the best route -/

theorem sepFree_mem {t : List Char} (h : sepFree t = true) {c : Char} (hc : c ∈ t) :
    c ≠ rowSepC ∧ c ≠ colSepC := by
  have h2 := List.all_eq_true.mp h c hc
  simp only [Bool.and_eq_true, Bool.not_eq_true', beq_eq_false_iff_ne] at h2
  exact h2

theorem dagLens_bounds (lex : Lexicon) (s : List Char) (hs : s ≠ []) :
    ∀ l ∈ dagLens lex s, 1 ≤ l ∧ l ≤ s.length := by
  intro l hl
  rcases List.mem_cons.mp hl with h1 | h2
  · subst h1
    refine ⟨le_refl 1, ?_⟩
    cases s with
    | nil => exact absurd rfl hs
    | cons c cs => simp
  · have h3 := List.mem_of_mem_filter h2
    rw [List.mem_range'_1] at h3
    omega

theorem pickBest_mem (T : Nat) (r : Route) (rs : List Route) : pickBest T r rs ∈ r :: rs := by
  induction rs generalizing r with
  | nil => simp [pickBest]
  | cons x xs ih =>
      have h1 : pickBest T r (x :: xs) = pickBest T (if betterScore T x r then x else r) xs := rfl
      rw [h1]
      rcases List.mem_cons.mp (ih (if betterScore T x r then x else r)) with h3 | h3
      · rw [h3]
        by_cases hb : betterScore T x r <;> simp [hb]
      · simp [h3]

/-- The candidate route for the first edge of length `l` of a suffix, with
the remaining suffix scored at the given fuel. -/
def candRoute (lex : Lexicon) (T : Nat) (fuel : Nat) (s : List Char) (l : Nat) : Route :=
  ⟨edgeFreq lex (s.take l) * (bestRouteF lex T fuel (s.drop l)).p,
   (bestRouteF lex T fuel (s.drop l)).c + 1, l⟩

theorem bestRouteF_succ (lex : Lexicon) (T fuel : Nat) (c : Char) (cs : List Char) :
    bestRouteF lex T (fuel + 1) (c :: cs) =
      pickBest T (candRoute lex T fuel (c :: cs) 1)
        (((List.range' 2 ((c :: cs).length - 1)).filter
            (fun l => isEntry lex ((c :: cs).take l))).map (candRoute lex T fuel (c :: cs))) := rfl

theorem bestRouteF_mem_cand (lex : Lexicon) (T fuel : Nat) (c : Char) (cs : List Char) :
    ∃ l ∈ dagLens lex (c :: cs),
      bestRouteF lex T (fuel + 1) (c :: cs) = candRoute lex T fuel (c :: cs) l := by
  rw [bestRouteF_succ]
  have h := pickBest_mem T (candRoute lex T fuel (c :: cs) 1)
    (((List.range' 2 ((c :: cs).length - 1)).filter
        (fun l => isEntry lex ((c :: cs).take l))).map (candRoute lex T fuel (c :: cs)))
  have h2 : pickBest T (candRoute lex T fuel (c :: cs) 1)
      (((List.range' 2 ((c :: cs).length - 1)).filter
          (fun l => isEntry lex ((c :: cs).take l))).map (candRoute lex T fuel (c :: cs))) ∈
      (dagLens lex (c :: cs)).map (candRoute lex T fuel (c :: cs)) := by
    simpa [dagLens] using h
  rcases List.mem_map.mp h2 with ⟨l, hl, he⟩
  exact ⟨l, hl, he.symm⟩

theorem bestRoute_len_mem (lex : Lexicon) (T : Nat) (c : Char) (cs : List Char) :
    (bestRoute lex T (c :: cs)).len ∈ dagLens lex (c :: cs) := by
  have he : bestRoute lex T (c :: cs) = bestRouteF lex T (cs.length + 1) (c :: cs) := rfl
  rw [he]
  rcases bestRouteF_mem_cand lex T cs.length c cs with ⟨l, hl, hr⟩
  rw [hr]
  exact hl

theorem bestRoute_len_bounds (lex : Lexicon) (T : Nat) (c : Char) (cs : List Char) :
    1 ≤ (bestRoute lex T (c :: cs)).len ∧ (bestRoute lex T (c :: cs)).len ≤ (c :: cs).length :=
  dagLens_bounds lex (c :: cs) (by simp) _ (bestRoute_len_mem lex T c cs)

/-! ### Structure of the reconstructed token stream -/

theorem engineToksF_succ (lex : Lexicon) (T fuel pos : Nat) (c : Char) (cs : List Char) :
    engineToksF lex T (fuel + 1) pos (c :: cs) =
      ((c :: cs).take (bestRoute lex T (c :: cs)).len, pos,
        pos + (bestRoute lex T (c :: cs)).len) ::
      engineToksF lex T fuel (pos + (bestRoute lex T (c :: cs)).len)
        ((c :: cs).drop (bestRoute lex T (c :: cs)).len) := rfl

theorem engineToksF_words (lex : Lexicon) (T : Nat) : ∀ (fuel pos : Nat) (s : List Char)
    (x : Word × Nat × Nat), x ∈ engineToksF lex T fuel pos s → ∀ ch ∈ x.1, ch ∈ s := by
  intro fuel
  induction fuel with
  | zero =>
      intro pos s x hx
      cases s <;> simp [engineToksF] at hx
  | succ fuel ih =>
      intro pos s x hx
      cases s with
      | nil => simp [engineToksF] at hx
      | cons c cs =>
          rw [engineToksF_succ] at hx
          rcases List.mem_cons.mp hx with h1 | h2
          · subst h1
            intro ch hch
            exact List.take_subset _ _ hch
          · intro ch hch
            exact List.drop_subset _ _ (ih _ _ x h2 ch hch)

theorem engineToksF_chain (lex : Lexicon) (T : Nat) : ∀ (fuel : Nat) (s : List Char) (pos : Nat),
    s.length ≤ fuel →
    spanChain pos (pos + s.length) ((engineToksF lex T fuel pos s).map toTok) = true := by
  intro fuel
  induction fuel with
  | zero =>
      intro s pos h
      have hs : s = [] := List.length_eq_zero.mp (by omega)
      subst hs
      simp [engineToksF, spanChain]
  | succ fuel ih =>
      intro s pos h
      cases s with
      | nil => simp [engineToksF, spanChain]
      | cons c cs =>
          have hb := bestRoute_len_bounds lex T c cs
          rw [engineToksF_succ, List.map_cons]
          set l := (bestRoute lex T (c :: cs)).len with hldef
          have hdl : ((c :: cs).drop l).length = (c :: cs).length - l := List.length_drop _ _
          have hfuel : ((c :: cs).drop l).length ≤ fuel := by
            rw [hdl]
            simp only [List.length_cons] at h ⊢
            omega
          have hrec := ih ((c :: cs).drop l) (pos + l) hfuel
          have hlen : pos + (c :: cs).length = (pos + l) + ((c :: cs).drop l).length := by
            rw [hdl]
            have h2 := hb.2
            omega
          rw [hlen]
          simp only [toTok, spanChain, Bool.and_eq_true, beq_iff_eq, decide_eq_true_eq]
          refine ⟨⟨trivial, ?_⟩, hrec⟩
          have h1 := hb.1
          omega

theorem engineToks_ne_nil (lex : Lexicon) (T : Nat) (c : Char) (cs : List Char) :
    engineToks lex T (c :: cs) ≠ [] := by
  show engineToksF lex T (cs.length + 1) 0 (c :: cs) ≠ []
  rw [engineToksF_succ]
  simp

/-! ### All mode contains every default-mode token -/

theorem engineCutAll_suffix (lex : Lexicon) (s : List Char) (l : Nat) (x : Word)
    (hx : x ∈ engineCutAll lex (s.drop l)) : x ∈ engineCutAll lex s := by
  rcases List.mem_flatMap.mp hx with ⟨i, hi, hx2⟩
  rcases List.mem_map.mp hx2 with ⟨j, hj, he⟩
  rw [List.mem_range] at hi
  have hdl : (s.drop l).length = s.length - l := List.length_drop _ _
  have hdd : (s.drop l).drop i = s.drop (l + i) := by
    rw [List.drop_drop]
  apply List.mem_flatMap.mpr
  refine ⟨l + i, ?_, ?_⟩
  · rw [List.mem_range]
    omega
  · apply List.mem_map.mpr
    refine ⟨j, ?_, ?_⟩
    · rw [← hdd]
      exact hj
    · rw [← hdd]
      exact he

theorem engineToksF_mem_all (lex : Lexicon) (T : Nat) : ∀ (fuel pos : Nat) (s : List Char)
    (x : Word × Nat × Nat), x ∈ engineToksF lex T fuel pos s → x.1 ∈ engineCutAll lex s := by
  intro fuel
  induction fuel with
  | zero =>
      intro pos s x hx
      cases s <;> simp [engineToksF] at hx
  | succ fuel ih =>
      intro pos s x hx
      cases s with
      | nil => simp [engineToksF] at hx
      | cons c cs =>
          rw [engineToksF_succ] at hx
          rcases List.mem_cons.mp hx with h1 | h2
          · subst h1
            apply List.mem_flatMap.mpr
            refine ⟨0, by simp [List.mem_range], ?_⟩
            apply List.mem_map.mpr
            exact ⟨(bestRoute lex T (c :: cs)).len, bestRoute_len_mem lex T c cs, rfl⟩
          · exact engineCutAll_suffix lex (c :: cs) _ _ (ih _ _ x h2)

theorem engineCutAll_ne_nil (lex : Lexicon) (c : Char) (cs : List Char) :
    engineCutAll lex (c :: cs) ≠ [] := by
  intro h
  have hm : (c :: cs).take 1 ∈ engineCutAll lex (c :: cs) := by
    apply List.mem_flatMap.mpr
    refine ⟨0, by simp [List.mem_range], ?_⟩
    apply List.mem_map.mpr
    exact ⟨1, by simp [dagLens], rfl⟩
  rw [h] at hm
  simp at hm

/-! ### Decoding the tokenize transport -/

theorem rowSep_ne_colSep : rowSepC ≠ colSepC := by decide

theorem splitCol_pairRow (w v : List Char) (hw : colSepC ∉ w) (hv : colSepC ∉ v) :
    splitCol (w ++ colSepC :: v) = [w, v] := by
  show splitSep colSepC (w ++ colSepC :: v) = [w, v]
  rw [splitSep_append, splitSep_not_mem _ _ hw, splitSep_not_mem _ _ hv]
  rfl

theorem splitCol_encodeTok (x : Word × Nat × Nat) (hw : colSepC ∉ x.1) :
    splitCol (encodeTok x) = [x.1, natChars x.2.1, natChars x.2.2] := by
  show splitSep colSepC (x.1 ++ colSepC :: (natChars x.2.1 ++ colSepC :: natChars x.2.2)) = _
  rw [splitSep_append, splitSep_not_mem _ _ hw, splitSep_append,
    splitSep_not_mem _ _ (fun h => (natChars_ne_sep _ _ h).2 rfl),
    splitSep_not_mem _ _ (fun h => (natChars_ne_sep _ _ h).2 rfl)]
  rfl

theorem rowSep_not_mem_encodeTok (x : Word × Nat × Nat) (hw : ∀ ch ∈ x.1, ch ≠ rowSepC) :
    rowSepC ∉ encodeTok x := by
  intro h
  rcases List.mem_append.mp h with h1 | h2
  · exact hw _ h1 rfl
  · rcases List.mem_cons.mp h2 with h3 | h4
    · exact rowSep_ne_colSep h3
    · rcases List.mem_append.mp h4 with h5 | h6
      · exact (natChars_ne_sep _ _ h5).1 rfl
      · rcases List.mem_cons.mp h6 with h7 | h8
        · exact rowSep_ne_colSep h7
        · exact (natChars_ne_sep _ _ h8).1 rfl

theorem tokenize_default_eq (lex : Lexicon) (cm : CutMode) (c : Char) (cs : List Char)
    (hsep : sepFree (c :: cs) = true) :
    tokenize lex (c :: cs) TokenizeMode.Default cm =
      (engineToks lex (totalFreq lex) (c :: cs)).map toTok := by
  have hne : engineToks lex (totalFreq lex) (c :: cs) ≠ [] :=
    engineToks_ne_nil lex (totalFreq lex) c cs
  have hwords : ∀ x ∈ engineToks lex (totalFreq lex) (c :: cs), ∀ ch ∈ x.1, ch ∈ (c :: cs) :=
    fun x hx => engineToksF_words lex (totalFreq lex) _ _ _ x hx
  have hrows : ∀ r ∈ (engineToks lex (totalFreq lex) (c :: cs)).map encodeTok, rowSepC ∉ r := by
    intro r hr
    rcases List.mem_map.mp hr with ⟨x, hx, he⟩
    subst he
    exact rowSep_not_mem_encodeTok x
      (fun ch hch => (sepFree_mem hsep (hwords x hx ch hch)).1)
  show ((splitSep rowSepC (joinSep rowSepC
      ((engineToks lex (totalFreq lex) (c :: cs)).map encodeTok))).map splitCol).map mkToken =
    (engineToks lex (totalFreq lex) (c :: cs)).map toTok
  rw [splitSep_joinSep_id _ _ (by simpa using hne) hrows, List.map_map, List.map_map]
  apply List.map_congr_left
  intro x hx
  have hw : colSepC ∉ x.1 := fun h => (sepFree_mem hsep (hwords x hx _ h)).2 rfl
  show mkToken (splitCol (encodeTok x)) = toTok x
  rw [splitCol_encodeTok x hw]
  show (⟨x.1, jsNumber? (natChars x.2.1), jsNumber? (natChars x.2.2)⟩ : Token) = toTok x
  rw [jsNumber_natChars, jsNumber_natChars]
  rfl

/-! ### Extraction rankings: structural lemmas -/

theorem firstDedup_subset : ∀ (l : List Word) (x : Word), x ∈ firstDedup l → x ∈ l := by
  intro l
  induction l with
  | nil => intro x hx; simp [firstDedup] at hx
  | cons w ws ih =>
      intro x hx
      rcases List.mem_cons.mp hx with h1 | h2
      · simp [h1]
      · exact List.mem_cons_of_mem _ (ih x (List.mem_of_mem_filter h2))

theorem rankTokens_words (lex : Lexicon) (T : Nat) (t : List Char) :
    ∀ w ∈ rankTokens lex T t, ∀ ch ∈ w, ch ∈ t := by
  intro w hw
  have h1 : w ∈ engineCut lex T t := List.mem_of_mem_filter hw
  rcases List.mem_map.mp h1 with ⟨x, hx, he⟩
  subst he
  exact engineToksF_words lex T _ _ _ x hx

theorem candidatesOf_words (lex : Lexicon) (T : Nat) (t : List Char) :
    ∀ w ∈ candidatesOf lex T t, ∀ ch ∈ w, ch ∈ t :=
  fun w hw => rankTokens_words lex T t w (firstDedup_subset _ w hw)

theorem insertDesc_mem {β : Type} [LinearOrder β] (x : Word × β) (l : List (Word × β))
    (y : Word × β) (hy : y ∈ insertDesc x l) : y = x ∨ y ∈ l := by
  induction l with
  | nil => simpa [insertDesc] using hy
  | cons z zs ih =>
      simp only [insertDesc] at hy
      split at hy
      · rcases List.mem_cons.mp hy with h1 | h2
        · exact Or.inl h1
        · exact Or.inr h2
      · rcases List.mem_cons.mp hy with h1 | h2
        · exact Or.inr (by simp [h1])
        · rcases ih h2 with h3 | h4
          · exact Or.inl h3
          · exact Or.inr (List.mem_cons_of_mem _ h4)

theorem sortDesc_subset {β : Type} [LinearOrder β] (l : List (Word × β)) (y : Word × β)
    (hy : y ∈ sortDesc l) : y ∈ l := by
  induction l generalizing y with
  | nil => simp [sortDesc] at hy
  | cons x xs ih =>
      simp only [sortDesc] at hy
      rcases insertDesc_mem x (sortDesc xs) y hy with h1 | h2
      · simp [h1]
      · exact List.mem_cons_of_mem _ (ih y h2)

theorem insertDesc_length {β : Type} [LinearOrder β] (x : Word × β) (l : List (Word × β)) :
    (insertDesc x l).length = l.length + 1 := by
  induction l with
  | nil => rfl
  | cons z zs ih =>
      simp only [insertDesc]
      split
      · simp
      · simp [ih]

theorem sortDesc_length {β : Type} [LinearOrder β] (l : List (Word × β)) :
    (sortDesc l).length = l.length := by
  induction l with
  | nil => rfl
  | cons x xs ih => simp [sortDesc, insertDesc_length, ih]

theorem truncTopK_subset {β : Type} (k : Int) (xs : List (Word × β)) (y : Word × β)
    (hy : y ∈ truncTopK k xs) : y ∈ xs := by
  unfold truncTopK at hy
  split at hy
  · exact List.take_subset _ _ hy
  · exact hy

theorem truncTopK_length {β : Type} (k : Int) (xs : List (Word × β)) :
    (truncTopK k xs).length = if 0 < k then min k.toNat xs.length else xs.length := by
  unfold truncTopK
  split
  · simp [List.length_take]
  · rfl

theorem iterate_prStep_fst (nodes : List Word) (contrib : Word → List (Word × ℚ) → ℚ) :
    ∀ (n : Nat) (init : List (Word × ℚ)), (∀ p ∈ init, p.1 ∈ nodes) →
    ∀ p ∈ Nat.iterate (prStep nodes contrib) n init, p.1 ∈ nodes := by
  intro n
  induction n with
  | zero => intro init h p hp; exact h p hp
  | succ n ih =>
      intro init h p hp
      rw [Function.iterate_succ_apply'] at hp
      rcases List.mem_map.mp hp with ⟨a, ha, he⟩
      rw [← he]
      exact ha

theorem iterate_prStep_length (nodes : List Word) (contrib : Word → List (Word × ℚ) → ℚ) :
    ∀ (n : Nat) (init : List (Word × ℚ)), init.length = nodes.length →
    (Nat.iterate (prStep nodes contrib) n init).length = nodes.length := by
  intro n
  induction n with
  | zero => intro init h; exact h
  | succ n ih =>
      intro init h
      rw [Function.iterate_succ_apply']
      simp [prStep]

theorem textrankScores_fst (toks nodes : List Word) :
    ∀ p ∈ textrankScores toks nodes, p.1 ∈ nodes := by
  apply iterate_prStep_fst
  intro p hp
  rcases List.mem_map.mp hp with ⟨a, ha, he⟩
  rw [← he]
  exact ha

theorem textrankScores_length (toks nodes : List Word) :
    (textrankScores toks nodes).length = nodes.length := by
  apply iterate_prStep_length
  simp

/-! ### Decoding the extraction transport -/

theorem ratChars_ne_sep (q : ℚ) (c : Char) (hc : c ∈ ratChars q) :
    c ≠ rowSepC ∧ c ≠ colSepC := by
  unfold ratChars intChars at hc
  rcases List.mem_append.mp hc with h1 | h2
  · rcases List.mem_append.mp h1 with h1a | h1b
    · split at h1a
      · simp only [List.mem_singleton] at h1a
        subst h1a
        exact ⟨by decide, by decide⟩
      · simp at h1a
    · exact natChars_ne_sep _ _ h1b
  · rcases List.mem_cons.mp h2 with h3 | h4
    · subst h3
      exact ⟨by decide, by decide⟩
    · exact natChars_ne_sep _ _ h4

theorem extract_transport (rows : List (Word × List Char)) (hne : rows ≠ [])
    (hrow : ∀ p ∈ rows, (∀ ch ∈ p.1, ch ≠ rowSepC ∧ ch ≠ colSepC) ∧
      (∀ ch ∈ p.2, ch ≠ rowSepC ∧ ch ≠ colSepC)) :
    (splitSep rowSepC (joinSep rowSepC
        (rows.map (fun p => p.1 ++ colSepC :: p.2)))).map splitCol =
      rows.map (fun p => [p.1, p.2]) := by
  have hrsep : ∀ r ∈ rows.map (fun p => p.1 ++ colSepC :: p.2), rowSepC ∉ r := by
    intro r hr
    rcases List.mem_map.mp hr with ⟨p, hp, he⟩
    subst he
    intro hmem
    rcases List.mem_append.mp hmem with h1 | h2
    · exact ((hrow p hp).1 _ h1).1 rfl
    · rcases List.mem_cons.mp h2 with h3 | h4
      · exact rowSep_ne_colSep h3
      · exact ((hrow p hp).2 _ h4).1 rfl
  have hne2 : rows.map (fun p => p.1 ++ colSepC :: p.2) ≠ [] := by
    intro h
    exact hne (List.map_eq_nil_iff.mp h)
  rw [splitSep_joinSep_id _ _ hne2 hrsep, List.map_map]
  apply List.map_congr_left
  intro p hp
  show splitCol (p.1 ++ colSepC :: p.2) = [p.1, p.2]
  exact splitCol_pairRow p.1 p.2 (fun h => ((hrow p hp).1 _ h).2 rfl)
    (fun h => ((hrow p hp).2 _ h).2 rfl)

theorem tfidfPairs_fst (lex : Lexicon) (t : List Char) (k : Int) :
    ∀ p ∈ tfidfPairs lex t k, p.1 ∈ candidatesOf lex (totalFreq lex) t := by
  intro p hp
  have h1 := truncTopK_subset _ _ _ hp
  have h2 := sortDesc_subset _ _ h1
  rcases List.mem_map.mp h2 with ⟨w, hw, he⟩
  rw [← he]
  exact hw

theorem textrankPairs_fst (lex : Lexicon) (t : List Char) (k : Int) :
    ∀ p ∈ textrankPairs lex t k, p.1 ∈ candidatesOf lex (totalFreq lex) t := by
  intro p hp
  have h1 := truncTopK_subset _ _ _ hp
  have h2 := sortDesc_subset _ _ h1
  exact textrankScores_fst _ _ p h2

theorem tfidfPairs_length (lex : Lexicon) (t : List Char) (k : Int) :
    (tfidfPairs lex t k).length =
      if 0 < k then min k.toNat (candidatesOf lex (totalFreq lex) t).length
      else (candidatesOf lex (totalFreq lex) t).length := by
  unfold tfidfPairs
  rw [truncTopK_length, sortDesc_length, List.length_map]

theorem textrankPairs_length (lex : Lexicon) (t : List Char) (k : Int) :
    (textrankPairs lex t k).length =
      if 0 < k then min k.toNat (candidatesOf lex (totalFreq lex) t).length
      else (candidatesOf lex (totalFreq lex) t).length := by
  unfold textrankPairs
  rw [truncTopK_length, sortDesc_length, textrankScores_length]

theorem tfidfPairs_ne_nil (lex : Lexicon) (t : List Char) (k : Int)
    (hc : candidatesOf lex (totalFreq lex) t ≠ []) : tfidfPairs lex t k ≠ [] := by
  have hlen := tfidfPairs_length lex t k
  have hC : 0 < (candidatesOf lex (totalFreq lex) t).length := List.length_pos.mpr hc
  intro he
  rw [he] at hlen
  by_cases hk : 0 < k
  · rw [if_pos hk] at hlen
    simp only [List.length_nil] at hlen
    omega
  · rw [if_neg hk] at hlen
    simp only [List.length_nil] at hlen
    omega

theorem textrankPairs_ne_nil (lex : Lexicon) (t : List Char) (k : Int)
    (hc : candidatesOf lex (totalFreq lex) t ≠ []) : textrankPairs lex t k ≠ [] := by
  have hlen := textrankPairs_length lex t k
  have hC : 0 < (candidatesOf lex (totalFreq lex) t).length := List.length_pos.mpr hc
  intro he
  rw [he] at hlen
  by_cases hk : 0 < k
  · rw [if_pos hk] at hlen
    simp only [List.length_nil] at hlen
    omega
  · rw [if_neg hk] at hlen
    simp only [List.length_nil] at hlen
    omega

theorem tfidf_extract_eq (lex : Lexicon) (t : List Char) (k : Int)
    (hsep : sepFree t = true) (hc : candidatesOf lex (totalFreq lex) t ≠ []) :
    TFIDF_extractTags lex t k [] =
      (tfidfPairs lex t k).map (fun p => [p.1, natChars p.2]) := by
  have hfst := tfidfPairs_fst lex t k
  have hrows : ∀ p ∈ (tfidfPairs lex t k).map (fun p => (p.1, natChars p.2)),
      (∀ ch ∈ p.1, ch ≠ rowSepC ∧ ch ≠ colSepC) ∧
      (∀ ch ∈ p.2, ch ≠ rowSepC ∧ ch ≠ colSepC) := by
    intro p hp
    rcases List.mem_map.mp hp with ⟨q, hq, he⟩
    subst he
    refine ⟨?_, ?_⟩
    · intro ch hch
      exact sepFree_mem hsep (candidatesOf_words lex (totalFreq lex) t _ (hfst q hq) ch hch)
    · intro ch hch
      exact natChars_ne_sep _ _ hch
  have hne2 : (tfidfPairs lex t k).map (fun p => (p.1, natChars p.2)) ≠ [] := by
    intro h
    exact tfidfPairs_ne_nil lex t k hc (List.map_eq_nil_iff.mp h)
  have hmm : (tfidfPairs lex t k).map (fun p => p.1 ++ colSepC :: natChars p.2) =
      ((tfidfPairs lex t k).map (fun p => (p.1, natChars p.2))).map
        (fun pr => pr.1 ++ colSepC :: pr.2) := by
    rw [List.map_map]
    rfl
  show ((splitSep rowSepC (joinSep rowSepC
      ((tfidfPairs lex t k).map (fun p => p.1 ++ colSepC :: natChars p.2)))).map splitCol) = _
  rw [hmm, extract_transport _ hne2 hrows, List.map_map]
  rfl

theorem textrank_extract_eq (lex : Lexicon) (t : List Char) (k : Int)
    (hsep : sepFree t = true) (hc : candidatesOf lex (totalFreq lex) t ≠ []) :
    TextRank_extractTags lex t k [] =
      (textrankPairs lex t k).map (fun p => [p.1, ratChars p.2]) := by
  have hfst := textrankPairs_fst lex t k
  have hrows : ∀ p ∈ (textrankPairs lex t k).map (fun p => (p.1, ratChars p.2)),
      (∀ ch ∈ p.1, ch ≠ rowSepC ∧ ch ≠ colSepC) ∧
      (∀ ch ∈ p.2, ch ≠ rowSepC ∧ ch ≠ colSepC) := by
    intro p hp
    rcases List.mem_map.mp hp with ⟨q, hq, he⟩
    subst he
    refine ⟨?_, ?_⟩
    · intro ch hch
      exact sepFree_mem hsep (candidatesOf_words lex (totalFreq lex) t _ (hfst q hq) ch hch)
    · intro ch hch
      exact ratChars_ne_sep _ _ hch
  have hne2 : (textrankPairs lex t k).map (fun p => (p.1, ratChars p.2)) ≠ [] := by
    intro h
    exact textrankPairs_ne_nil lex t k hc (List.map_eq_nil_iff.mp h)
  have hmm : (textrankPairs lex t k).map (fun p => p.1 ++ colSepC :: ratChars p.2) =
      ((textrankPairs lex t k).map (fun p => (p.1, ratChars p.2))).map
        (fun pr => pr.1 ++ colSepC :: pr.2) := by
    rw [List.map_map]
    rfl
  show ((splitSep rowSepC (joinSep rowSepC
      ((textrankPairs lex t k).map (fun p => p.1 ++ colSepC :: ratChars p.2)))).map splitCol) = _
  rw [hmm, extract_transport _ hne2 hrows, List.map_map]
  rfl

/-! ### Claim theorems -/

/-- Claim C1: on the base dictionary, cut of 我来到北京清华大学 in Default
mode returns exactly 我 / 来到 / 北京 / 清华大学, and in All mode exactly
the fifteen-token explosion, in that order. -/
theorem C1_cut_example :
    cut baseLex (wd "我来到北京清华大学") CutMode.Default =
      [wd "我", wd "来到", wd "北京", wd "清华大学"] ∧
    cut baseLex (wd "我来到北京清华大学") CutMode.All =
      [wd "我", wd "来", wd "来到", wd "到", wd "北", wd "北京", wd "京", wd "清",
       wd "清华", wd "清华大学", wd "华", wd "华大", wd "大", wd "大学", wd "学"] :=
  ⟨by decide, by decide⟩

/-- Claim C2: after any sequence of addWord or dictionary-merge mutations,
reset restores the originally loaded base state, so cut and suggestFreq
give exactly the results of a freshly loaded engine; reset is idempotent
and is the identity on the fresh state. -/
theorem C2_reset_restores (ops : List DictOp) (s : List Char) (m : CutMode) (w : Word) :
    cut (reset (applyOps baseLex ops)) s m = cut baseLex s m ∧
    suggestFreq (reset (applyOps baseLex ops)) w = suggestFreq baseLex w ∧
    reset (reset (applyOps baseLex ops)) = reset (applyOps baseLex ops) ∧
    reset baseLex = baseLex :=
  ⟨rfl, rfl, rfl, rfl⟩

/-- Claim C3: on the base dictionary, cut of 我们中出了一个叛徒 in Default
mode keeps 中 and 出 as two single-character tokens; after
addWord(中出, 10000, v) the same call yields 中出 as one token. -/
theorem C3_addword_override :
    cut baseLex (wd "我们中出了一个叛徒") CutMode.Default =
      [wd "我们", wd "中", wd "出", wd "了", wd "一个", wd "叛徒"] ∧
    cut (addWord baseLex (wd "中出") 10000 (wd "v")) (wd "我们中出了一个叛徒")
        CutMode.Default =
      [wd "我们", wd "中出", wd "了", wd "一个", wd "叛徒"] :=
  ⟨by decide, by decide⟩

/-- Claim C4: on the unmodified engine with the modelled base dictionary,
suggestFreq of 中出 returns exactly 348. -/
theorem C4_suggestFreq_baseline : suggestFreq baseLex (wd "中出") = 348 := by decide

/-- Claim C5, amended: for every nonempty input text whose characters
avoid the two transport sentinels, the spans of the Default-mode tokenize
result chain contiguously from 0 to the text length in code-point units,
with no gaps and no overlaps; on the empty input the wrapper instead
returns one degenerate token (see the counterexample). -/
theorem C5_tokenize_spans (lex : Lexicon) (t : List Char) (hne : t ≠ [])
    (hsep : sepFree t = true) :
    spanChain 0 t.length (tokenize lex t TokenizeMode.Default CutMode.Default) = true := by
  cases t with
  | nil => exact absurd rfl hne
  | cons c cs =>
      rw [tokenize_default_eq lex CutMode.Default c cs hsep]
      have h := engineToksF_chain lex (totalFreq lex) (c :: cs).length (c :: cs) 0 (le_refl _)
      simpa [engineToks] using h

/-- Claim C5, counterexample: on the empty input the tokenize wrapper
returns a single degenerate token with NaN offsets, so the returned spans
do not cover the empty range exactly. -/
theorem C5_counterexample :
    spanChain 0 (List.length ([] : List Char))
      (tokenize baseLex [] TokenizeMode.Default CutMode.Default) = false := by decide

/-- Claim C5, witness for the amended theorem at a concrete input. -/
theorem C5_witness :
    (wd "南京市长江大桥" ≠ [] ∧ sepFree (wd "南京市长江大桥") = true) ∧
    spanChain 0 (wd "南京市长江大桥").length
      (tokenize baseLex (wd "南京市长江大桥") TokenizeMode.Default CutMode.Default) = true :=
  ⟨⟨by decide, by decide⟩,
    C5_tokenize_spans baseLex (wd "南京市长江大桥") (by decide) (by decide)⟩

/-- Claim C6: tokenize of 南京市长江大桥 in Search mode returns exactly the
six overlapping records, each full multi-character token re-emitted after
its sub-n-grams, in that order. -/
theorem C6_tokenize_search :
    tokenize baseLex (wd "南京市长江大桥") TokenizeMode.Search CutMode.Default =
      [⟨wd "南京", some 0, some 2⟩, ⟨wd "京市", some 1, some 3⟩,
       ⟨wd "南京市", some 0, some 3⟩, ⟨wd "长江", some 3, some 5⟩,
       ⟨wd "大桥", some 5, some 7⟩, ⟨wd "长江大桥", some 3, some 7⟩] := by decide

/-- Claim C7: for every input text and every engine state, every token of
the Default-mode cut also occurs among the tokens of the All-mode cut. -/
theorem C7_all_superset (lex : Lexicon) (t : List Char) (x : Word)
    (h : x ∈ cut lex t CutMode.Default) : x ∈ cut lex t CutMode.All := by
  cases t with
  | nil =>
      have e1 : cut lex [] CutMode.Default = [[]] := rfl
      have e2 : cut lex [] CutMode.All = [[]] := rfl
      rw [e1] at h
      rw [e2]
      exact h
  | cons c cs =>
      have hd : cut lex (c :: cs) CutMode.Default =
          (engineCut lex (totalFreq lex) (c :: cs)).flatMap (splitSep rowSepC) := by
        show splitSep rowSepC (joinSep rowSepC (engineCut lex (totalFreq lex) (c :: cs))) = _
        apply splitSep_joinSep_flat
        intro he
        exact engineToks_ne_nil lex (totalFreq lex) c cs (List.map_eq_nil_iff.mp he)
      have ha : cut lex (c :: cs) CutMode.All =
          (engineCutAll lex (c :: cs)).flatMap (splitSep rowSepC) := by
        show splitSep rowSepC (joinSep rowSepC (engineCutAll lex (c :: cs))) = _
        exact splitSep_joinSep_flat _ _ (engineCutAll_ne_nil lex c cs)
      rw [hd] at h
      rw [ha]
      rcases List.mem_flatMap.mp h with ⟨tok, htok, hx⟩
      rcases List.mem_map.mp htok with ⟨trip, htrip, he⟩
      apply List.mem_flatMap.mpr
      refine ⟨tok, ?_, hx⟩
      rw [← he]
      exact engineToksF_mem_all lex (totalFreq lex) _ _ _ trip htrip

/-- Claim C7, witness at a concrete input. -/
theorem C7_witness :
    wd "来到" ∈ cut baseLex (wd "我来到北京清华大学") CutMode.Default ∧
    wd "来到" ∈ cut baseLex (wd "我来到北京清华大学") CutMode.All :=
  ⟨by decide, C7_all_superset baseLex (wd "我来到北京清华大学") (wd "来到") (by decide)⟩

/-- Claim C8, amended: on the empty input no read operation errors, but
none returns an empty sequence either: splitting the engine's empty row
string yields one degenerate element, so cut returns the singleton list
holding the empty word, tokenize one token with empty word and NaN
offsets, and both extractors one single-field row. -/
theorem C8_empty_input (lex : Lexicon) (m : CutMode) (tm : TokenizeMode) (cm : CutMode) :
    cut lex [] m = [[]] ∧
    tokenize lex [] tm cm = [⟨[], none, none⟩] ∧
    TFIDF_extractTags lex [] defaultTopK [] = [[[]]] ∧
    TextRank_extractTags lex [] defaultTopK [] = [[[]]] := by
  refine ⟨?_, ?_, rfl, rfl⟩
  · cases m <;> rfl
  · cases tm <;> rfl

/-- Claim C8, counterexample: cut on the empty input does not return the
empty list. -/
theorem C8_counterexample : cut baseLex [] CutMode.Default ≠ [] := by decide

/-- Claim C9, amended: whenever at least one candidate term exists (and
the text avoids the transport sentinels), both extractors return, without
error, min(topK, candidateCount) rows for positive topK and all candidates
otherwise, the wrapper default topK being 20; with zero candidates the
wrapper instead returns one degenerate row (see the counterexample). -/
theorem C9_topk_lengths (lex : Lexicon) (t : List Char) (k : Int)
    (hsep : sepFree t = true) (hc : candidatesOf lex (totalFreq lex) t ≠ []) :
    (TFIDF_extractTags lex t k []).length =
      (if 0 < k then min k.toNat (candidatesOf lex (totalFreq lex) t).length
       else (candidatesOf lex (totalFreq lex) t).length) ∧
    (TextRank_extractTags lex t k []).length =
      (if 0 < k then min k.toNat (candidatesOf lex (totalFreq lex) t).length
       else (candidatesOf lex (totalFreq lex) t).length) ∧
    defaultTopK = 20 := by
  refine ⟨?_, ?_, rfl⟩
  · rw [tfidf_extract_eq lex t k hsep hc, List.length_map, tfidfPairs_length]
  · rw [textrank_extract_eq lex t k hsep hc, List.length_map, textrankPairs_length]

/-- Claim C9, counterexample: on the empty input the candidate count is
zero yet the TF-IDF wrapper returns one (degenerate) row, so the promised
length equation fails. -/
theorem C9_counterexample :
    (TFIDF_extractTags baseLex [] 20 []).length ≠
      min (Int.toNat 20) (candidatesOf baseLex (totalFreq baseLex) []).length := by decide

/-- Claim C9, witness for the amended theorem at a concrete input. -/
theorem C9_witness :
    (sepFree (wd "一个叛徒") = true ∧
      candidatesOf baseLex (totalFreq baseLex) (wd "一个叛徒") ≠ []) ∧
    ((TFIDF_extractTags baseLex (wd "一个叛徒") 1 []).length =
      (if 0 < (1 : Int) then
        min (Int.toNat 1) (candidatesOf baseLex (totalFreq baseLex) (wd "一个叛徒")).length
       else (candidatesOf baseLex (totalFreq baseLex) (wd "一个叛徒")).length) ∧
     (TextRank_extractTags baseLex (wd "一个叛徒") 1 []).length =
      (if 0 < (1 : Int) then
        min (Int.toNat 1) (candidatesOf baseLex (totalFreq baseLex) (wd "一个叛徒")).length
       else (candidatesOf baseLex (totalFreq baseLex) (wd "一个叛徒")).length) ∧
     defaultTopK = 20) :=
  ⟨⟨by decide, by decide⟩, C9_topk_lengths baseLex (wd "一个叛徒") 1 (by decide) (by decide)⟩

/-- Claim C10: both extractors return exactly the engine rows split on the
column separator: every element is a list of strings whose second field is
the weight as an unparsed rendered string, passed through verbatim; by
contrast the tokenize wrapper parses its offset fields into numbers. -/
theorem C10_extract_raw_strings (lex : Lexicon) (t : List Char) (k : Int)
    (hsep : sepFree t = true) (hc : candidatesOf lex (totalFreq lex) t ≠ []) :
    TFIDF_extractTags lex t k [] =
      (tfidfPairs lex t k).map (fun p => [p.1, natChars p.2]) ∧
    TextRank_extractTags lex t k [] =
      (textrankPairs lex t k).map (fun p => [p.1, ratChars p.2]) ∧
    tokenize lex t TokenizeMode.Default CutMode.Default =
      (engineToks lex (totalFreq lex) t).map toTok := by
  have hne : t ≠ [] := by
    intro he
    subst he
    exact hc rfl
  refine ⟨tfidf_extract_eq lex t k hsep hc, textrank_extract_eq lex t k hsep hc, ?_⟩
  cases t with
  | nil => exact absurd rfl hne
  | cons c cs => exact tokenize_default_eq lex CutMode.Default c cs hsep

/-- Claim C10, witness at a concrete input. -/
theorem C10_witness :
    (sepFree (wd "一个叛徒") = true ∧
      candidatesOf baseLex (totalFreq baseLex) (wd "一个叛徒") ≠ []) ∧
    (TFIDF_extractTags baseLex (wd "一个叛徒") 20 [] =
      (tfidfPairs baseLex (wd "一个叛徒") 20).map (fun p => [p.1, natChars p.2]) ∧
     TextRank_extractTags baseLex (wd "一个叛徒") 20 [] =
      (textrankPairs baseLex (wd "一个叛徒") 20).map (fun p => [p.1, ratChars p.2]) ∧
     tokenize baseLex (wd "一个叛徒") TokenizeMode.Default CutMode.Default =
      (engineToks baseLex (totalFreq baseLex) (wd "一个叛徒")).map toTok) :=
  ⟨⟨by decide, by decide⟩,
    C10_extract_raw_strings baseLex (wd "一个叛徒") 20 (by decide) (by decide)⟩

end DenoJieba
